import Mathlib

/-!
Verification of the weldyn YAML-configuration reconciliation core.

The repository consists of a pydantic-based orchestrator
(src/weldyn/weldyn.py, class YamlConfigurableModel) and a helper module
model_to_yaml_interface providing get_model_mapping_and_path,
check_model_overlap, check_yaml_path, generate_yaml_from_model and
update_yaml_from_model.  The orchestrator and the test suite are in src/;
the helper module itself is not, so its functions are modelled from the
specification (each such definition carries a doc comment starting with
Modelled from the spec).

DocumentTrees (nested YAML mappings) are embedded as the mutual inductive
Value / DTree below; mappings are association lists with string keys.
-/

namespace Weldyn

/-- A YAML scalar: string, integer, boolean or null.  (Floats are not needed
by any claim; integers stand in for YAML numbers.) -/
inductive Scalar where
  | s (x : String)
  | i (n : Int)
  | b (x : Bool)
  | null
deriving DecidableEq, Repr

mutual

/-- A value in a DocumentTree: a scalar, a list of scalars, or a nested
mapping (DocumentTree). -/
inductive Value where
  | scalar (x : Scalar)
  | slist (xs : List Scalar)
  | vtree (ts : DTree)
deriving DecidableEq, Repr

/-- A DocumentTree: a mapping from string keys to values, represented as an
association list. -/
inductive DTree where
  | nil
  | cons (key : String) (val : Value) (rest : DTree)
deriving DecidableEq, Repr

end

/-- First-occurrence key lookup in a DocumentTree. -/
def lookupT : DTree → String → Option Value
  | .nil, _ => none
  | .cons k v rest, key => if k = key then some v else lookupT rest key

/-- The keys of a DocumentTree, in order (duplicates kept). -/
def keysT : DTree → List String
  | .nil => []
  | .cons k _ rest => k :: keysT rest

/-- Whether a value is a nested mapping (composite) as opposed to a leaf. -/
def isTreeV : Value → Bool
  | .vtree _ => true
  | _ => false

mutual

/-- A value is well formed when every mapping inside it has pairwise
distinct keys.  YAML mappings and pydantic schemas cannot produce
duplicate keys, so this is the representation invariant of the
association-list embedding. -/
def wfValue : Value → Bool
  | .vtree ts => wfTree ts
  | _ => true

/-- A DocumentTree is well formed when its keys are pairwise distinct and
all its values are well formed, recursively. -/
def wfTree : DTree → Bool
  | .nil => true
  | .cons k v rest => (lookupT rest k).isNone && wfValue v && wfTree rest

end

mutual

/-- Modelled from the spec: the value-level step of the Recursive
Reconciler of update_yaml_from_model (model_to_yaml_interface is not in
src/).  When both the default and the on-disk value are nested trees the
merge recurses; in every other case (leaf default, or a type-shape
mismatch) the on-disk value is taken verbatim. -/
def reconcileValue (sv dv : Value) : Value :=
  match dv, sv with
  | .vtree dts, .vtree sts => .vtree (reconcileTree sts dts)
  | _, _ => sv

/-- Modelled from the spec: the Recursive Reconciler
(model_to_yaml_interface is not in src/).  Iterates over the keys of the
default tree: a key also on disk keeps the on-disk value (recursing when
both sides are trees), a key absent on disk is filled with its default,
and keys on disk that are absent from the default tree are dropped. -/
def reconcileTree (disk defs : DTree) : DTree :=
  match defs with
  | .nil => .nil
  | .cons k dv rest =>
    .cons k
      (match lookupT disk k with
       | none => dv
       | some sv => reconcileValue sv dv)
      (reconcileTree disk rest)

end

/-- The value a key receives in the merged tree, given the optional
on-disk value and the default value for that key. -/
def mergeOpt (so : Option Value) (dv : Value) : Value :=
  match so with
  | none => dv
  | some sv => reconcileValue sv dv

/-- Navigation along a path of keys through nested DocumentTrees.
Returns the value at that position, or none when the path leaves the
tree structure. -/
def getPath : Value → List String → Option Value
  | v, [] => some v
  | .vtree ts, k :: ps =>
    (match lookupT ts k with
     | none => none
     | some v => getPath v ps)
  | _, _ :: _ => none

/-! ## Orchestration (weldyn.py and its helper module) -/

/-- The error outcomes of schema instantiation. -/
inductive Err where
  | attributeErrorYamlPath
  | configurationConflict
  | missingFile
  | keyError
deriving DecidableEq, Repr

/-- The file system fragment relevant to one instantiation: a map from
normalized yaml file names to their DocumentTree content.  Writes prepend,
lookups take the newest entry. -/
abbrev FS := List (String × DTree)

/-- Lookup of a file's current content. -/
def fsLookup : FS → String → Option DTree
  | [], _ => none
  | (p, t) :: rest, path => if p = path then some t else fsLookup rest path

/-- The inner YamlConfig class of a YamlConfigurableModel subclass:
an optional YAML_PATH attribute and an optional MODEL_MAPPING attribute
(yaml file identifier to list of field names).  none means the attribute
is absent from the class. -/
structure YamlConfigCls where
  yamlPathAttr : Option String
  modelMappingAttr : Option (List (String × List String))

/-- Modelled from the spec: get_model_mapping_and_path
(model_to_yaml_interface is not in src/) returns the configured path and
the mapping; an absent or empty mapping yields the empty mapping,
which disables persistence without error (test_nonexistent_model_mapping). -/
def get_model_mapping_and_path (cfg : YamlConfigCls) :
    Option String × List (String × List String) :=
  (cfg.yamlPathAttr, cfg.modelMappingAttr.getD [])

/-- The number of groups of the mapping whose field-name list contains
the given field. -/
def countGroups (f : String) : List (String × List String) → Nat
  | [] => 0
  | g :: rest => (if f ∈ g.2 then 1 else 0) + countGroups f rest

/-- Modelled from the spec: check_model_overlap (model_to_yaml_interface
is not in src/) confirms the field being resolved appears in at most one
group of the mapping; returns false (a ConfigurationConflict) otherwise. -/
def check_model_overlap (f : String) (mapping : List (String × List String)) : Bool :=
  decide (countGroups f mapping ≤ 1)

/-- Modelled from the spec: check_yaml_path of the helper module
(model_to_yaml_interface is not in src/), the Artifact Locator: the group
identifier is used verbatim when it already carries the yaml extension,
otherwise the extension is appended.  The base-directory prefix is common
to all artifacts and is left implicit in the FS keys. -/
def check_yaml_path (yamlFile : String) : String :=
  if List.isSuffixOf (".yaml".data) yamlFile.data then yamlFile
  else yamlFile ++ ".yaml"

/-- Modelled from the spec: the Default Tree Builder output for a whole
group: one DocumentTree keyed by field name holding the default-derived
tree of every field of the schema assigned to the group. -/
def groupDefaults (schema : DTree) : List String → DTree
  | [] => .nil
  | m :: rest =>
    match lookupT schema m with
    | some dv => .cons m dv (groupDefaults schema rest)
    | none => groupDefaults schema rest

/-- Modelled from the spec: generate_yaml_from_model
(model_to_yaml_interface is not in src/) writes a newly created artifact
holding the default-derived content of every field assigned to the
group. -/
def generate_yaml_from_model (schema : DTree) (models : List String)
    (path : String) (fs : FS) : FS :=
  (path, groupDefaults schema models) :: fs

/-- Modelled from the spec: update_yaml_from_model
(model_to_yaml_interface is not in src/) loads the artifact, reconciles it
against the group's default tree, rewrites the artifact with the merged
tree, and returns the sub-tree keyed by the field being resolved. -/
def update_yaml_from_model (schema : DTree) (fieldName : String)
    (models : List String) (path : String) (fs : FS) : FS × Except Err Value :=
  match fsLookup fs path with
  | none => (fs, .error .missingFile)
  | some onDisk =>
    let merged := reconcileTree onDisk (groupDefaults schema models)
    match lookupT merged fieldName with
    | some sub => ((path, merged) :: fs, .ok sub)
    | none => ((path, merged) :: fs, .error .keyError)

/-- The body of the matching-group branch of load_or_generate_model_config
(weldyn.py lines 71 to 76): generate the artifact when it does not exist,
then unconditionally run update_yaml_from_model and return its result. -/
def resolveGroupStep (schema : DTree) (fieldName : String)
    (models : List String) (path : String) (fs : FS) : FS × Except Err Value :=
  let fs1 := if (fsLookup fs path).isSome then fs
             else generate_yaml_from_model schema models path fs
  update_yaml_from_model schema fieldName models path fs1

/-- The loop of load_or_generate_model_config (weldyn.py lines 70 to 77)
over the groups of the mapping: the first group whose field list contains
the field being resolved handles it; a field in no group keeps the raw
value handed to the validator. -/
def resolveGroups (schema : DTree) (fieldName : String) (v : Value) (fs : FS) :
    List (String × List String) → FS × Except Err Value
  | [] => (fs, .ok v)
  | (yamlFile, models) :: rest =>
    if fieldName ∈ models then
      resolveGroupStep schema fieldName models (check_yaml_path yamlFile) fs
    else resolveGroups schema fieldName v fs rest

/-- The per-field validator load_or_generate_model_config
(weldyn.py lines 63 to 77): fetch path and mapping, and when a path is
configured check for group overlap and resolve the field through its
group's artifact; the raw value v is returned untouched otherwise. -/
def load_or_generate_model_config (schema : DTree) (cfg : YamlConfigCls)
    (fieldName : String) (v : Value) (fs : FS) : FS × Except Err Value :=
  match get_model_mapping_and_path cfg with
  | (none, _) => (fs, .ok v)
  | (some _, mapping) =>
    if check_model_overlap fieldName mapping then
      resolveGroups schema fieldName v fs mapping
    else (fs, .error .configurationConflict)

/-- The model validator check_yaml_path (weldyn.py lines 56 to 61): reads
cls.YamlConfig.YAML_PATH unconditionally, which raises AttributeError when
the attribute is absent (test_nonexistent_yaml_path); the str-to-Path
normalization it performs otherwise is identity in this embedding. -/
def check_yaml_path_validator (cfg : YamlConfigCls) : Except Err Unit :=
  match cfg.yamlPathAttr with
  | none => .error .attributeErrorYamlPath
  | some _ => .ok ()

/-- Per-field resolution in declaration order: each declared field is run
through load_or_generate_model_config (pydantic field_validator on all
fields, with validate_default set, so a field absent from the raw input is
validated on its declared default).  schema maps field names to their
default-derived trees; the first error aborts the remaining fields. -/
def resolveFields (schema : DTree) (cfg : YamlConfigCls) (raw : DTree) (fs : FS) :
    DTree → FS × Except Err DTree
  | .nil => (fs, .ok .nil)
  | .cons f dv rest =>
    let v0 := match lookupT raw f with
      | some rv => rv
      | none => dv
    match load_or_generate_model_config schema cfg f v0 fs with
    | (fs1, .ok val) =>
      (match resolveFields schema cfg raw fs1 rest with
       | (fs2, .ok vals) => (fs2, .ok (.cons f val vals))
       | (fs2, .error e) => (fs2, .error e))
    | (fs1, .error e) => (fs1, .error e)

/-- Instantiating a YamlConfigurableModel subclass: the before-mode model
validator check_yaml_path runs first, then every declared field is
resolved in declaration order.  raw holds the caller-supplied field
values; the result pairs the final file system with either the resolved
raw field values (handed on to pydantic coercion) or the first error. -/
def instantiate (cfg : YamlConfigCls) (schema raw : DTree) (fs : FS) :
    FS × Except Err DTree :=
  match check_yaml_path_validator cfg with
  | .error e => (fs, .error e)
  | .ok _ => resolveFields schema cfg raw fs schema

/-- A sample stale on-disk tree used by concrete witnesses: an override
for key a and a key old that the current defaults no longer declare. -/
def exDisk : DTree :=
  .cons ("a") (.scalar (.i 2)) (.cons ("old") (.scalar (.i 9)) .nil)

/-- A sample default tree used by concrete witnesses: a leaf key a and a
composite key b. -/
def exDefault : DTree :=
  .cons ("a") (.scalar (.i 1))
    (.cons ("b") (.vtree (.cons ("c") (.scalar (.s ("x"))) .nil)) .nil)

/-! ## Basic lemmas about the reconciler -/

/-- The merged tree has an entry for a key exactly when the default tree
does, and its value is the merge of the first on-disk and default values
for that key. -/
theorem lookup_reconcile (s d : DTree) (k : String) :
    lookupT (reconcileTree s d) k = (lookupT d k).map (mergeOpt (lookupT s k)) := by
  match d with
  | .nil => simp [reconcileTree, lookupT]
  | .cons k0 dv rest =>
    by_cases h : k0 = k
    · subst h; simp [reconcileTree, lookupT, mergeOpt]
    · simp [reconcileTree, lookupT, h, lookup_reconcile s rest k]

/-- Reconciling against an empty on-disk tree reproduces the default
tree: every key is default-filled. -/
theorem reconcile_nil_disk (d : DTree) : reconcileTree .nil d = d := by
  match d with
  | .nil => rfl
  | .cons k0 dv rest => simp [reconcileTree, lookupT, reconcile_nil_disk rest]

/-- When the on-disk and default values are not both trees, the on-disk
value is taken verbatim. -/
theorem reconcileValue_not_both (sv dv : Value)
    (h : isTreeV sv = false ∨ isTreeV dv = false) :
    reconcileValue sv dv = sv := by
  cases sv <;> cases dv <;> simp [reconcileValue, isTreeV] at h ⊢

/-- A value looked up in a well-formed tree is well formed. -/
theorem lookup_wf (t : DTree) (k : String) (v : Value)
    (hwf : wfTree t = true) (h : lookupT t k = some v) : wfValue v = true := by
  match t with
  | .nil => simp [lookupT] at h
  | .cons k0 v0 rest =>
    simp only [wfTree, Bool.and_eq_true] at hwf
    simp only [lookupT] at h
    by_cases hk : k0 = k
    · simp [hk] at h; exact h ▸ hwf.1.2
    · exact lookup_wf rest k v hwf.2 (by simpa [hk] using h)

/-- Reconciling a well-formed tree whose entries the on-disk side already
carries verbatim changes nothing. -/
theorem reconcile_self_gen (d : DTree) (disk : DTree)
    (hwf : wfTree d = true)
    (hlk : ∀ k dv, lookupT d k = some dv → lookupT disk k = some dv) :
    reconcileTree disk d = d := by
  match d with
  | .nil => simp [reconcileTree]
  | .cons k0 dv rest =>
    simp only [wfTree, Bool.and_eq_true] at hwf
    obtain ⟨⟨hnone, hwv⟩, hwrest⟩ := hwf
    have hd0 : lookupT disk k0 = some dv := hlk k0 dv (by simp [lookupT])
    have hval : reconcileValue dv dv = dv := by
      match dv with
      | .scalar x => simp [reconcileValue]
      | .slist xs => simp [reconcileValue]
      | .vtree ts =>
        simp only [reconcileValue]
        rw [reconcile_self_gen ts ts (by simpa [wfValue] using hwv) (fun _ _ h => h)]
    have hrest : reconcileTree disk rest = rest := by
      apply reconcile_self_gen rest disk hwrest
      intro k dv' h
      have hk : k0 ≠ k := by
        intro he; subst he
        rw [h] at hnone; simp at hnone
      exact hlk k dv' (by simp [lookupT, hk]; exact h)
    simp [reconcileTree, hd0, hval, hrest]

/-- Reconciling a well-formed tree against itself changes nothing. -/
theorem reconcile_self (d : DTree) (hwf : wfTree d = true) :
    reconcileTree d d = d :=
  reconcile_self_gen d d hwf (fun _ _ h => h)

/-- Generalized idempotence: merging any tree M that already agrees,
key by key, with the merge of s against the well-formed default tree defs
reproduces that merge. -/
theorem reconcile_idem_gen (defs : DTree) (M s : DTree)
    (hwf : wfTree defs = true)
    (hM : ∀ k dv, lookupT defs k = some dv →
      lookupT M k = some (mergeOpt (lookupT s k) dv)) :
    reconcileTree M defs = reconcileTree s defs := by
  match defs with
  | .nil => simp [reconcileTree]
  | .cons k0 dv rest =>
    simp only [wfTree, Bool.and_eq_true] at hwf
    obtain ⟨⟨hnone, hwv⟩, hwrest⟩ := hwf
    have hM0 : lookupT M k0 = some (mergeOpt (lookupT s k0) dv) :=
      hM k0 dv (by simp [lookupT])
    have hval : reconcileValue (mergeOpt (lookupT s k0) dv) dv =
        mergeOpt (lookupT s k0) dv := by
      match dv with
      | .scalar x => simp [reconcileValue]
      | .slist xs => simp [reconcileValue]
      | .vtree dts =>
        have hwdts : wfTree dts = true := by simpa [wfValue] using hwv
        match hs : lookupT s k0 with
        | none =>
          simp only [mergeOpt, reconcileValue]
          rw [reconcile_self dts hwdts]
        | some sv =>
          match sv with
          | .scalar y => simp [mergeOpt, reconcileValue]
          | .slist ys => simp [mergeOpt, reconcileValue]
          | .vtree sts =>
            simp only [mergeOpt, reconcileValue]
            rw [reconcile_idem_gen dts (reconcileTree sts dts) sts hwdts
              (fun k dv' h => by rw [lookup_reconcile]; simp [h])]
    have hrest : reconcileTree M rest = reconcileTree s rest := by
      apply reconcile_idem_gen rest M s hwrest
      intro k dv' h
      have hk : k0 ≠ k := by
        intro he; subst he
        rw [h] at hnone; simp at hnone
      exact hM k dv' (by simp [lookupT, hk]; exact h)
    simp only [reconcileTree, hM0, hrest]
    rw [hval]
    simp only [mergeOpt]

/-- C1: The reconciliation merge is idempotent: a tree that is itself the
output of reconciling some on-disk tree against a well-formed default tree
is left exactly unchanged (no key added, removed, or rewritten) by a
second reconciliation against the same default tree.  Well-formedness of
the default tree is the representation invariant of association lists:
default trees are built from schema fields, whose names are unique. -/
theorem reconcile_idempotent (s d : DTree) (hwf : wfTree d = true) :
    reconcileTree (reconcileTree s d) d = reconcileTree s d :=
  reconcile_idem_gen d (reconcileTree s d) s hwf
    (fun k dv h => by rw [lookup_reconcile]; simp [h])

theorem reconcile_idempotent_witness :
    reconcileTree (reconcileTree exDisk exDefault) exDefault =
      reconcileTree exDisk exDefault :=
  reconcile_idempotent exDisk exDefault (by decide)

/-! ## Path lemmas -/

/-- Path navigation splits over path concatenation. -/
theorem getPath_append (v : Value) (ps qs : List String) :
    getPath v (ps ++ qs) = (getPath v ps).bind (fun w => getPath w qs) := by
  match ps with
  | [] => simp [getPath]
  | k :: ps2 =>
    match v with
    | .scalar x => simp [getPath]
    | .slist xs => simp [getPath]
    | .vtree ts =>
      cases h : lookupT ts k with
      | none => simp [getPath, h]
      | some w => simp [getPath, h, getPath_append w ps2 qs]

/-- A one-step path resolves exactly through a tree value and a key
lookup in it. -/
theorem getPath_single (w : Value) (k : String) (x : Value) :
    getPath w [k] = some x ↔ ∃ ts, w = .vtree ts ∧ lookupT ts k = some x := by
  match w with
  | .scalar y => simp [getPath]
  | .slist ys => simp [getPath]
  | .vtree ts =>
    cases h : lookupT ts k with
    | none => simp [getPath, h]
    | some v => simp [getPath, h]

/-- When the on-disk and default trees both hold composite sub-trees at a
position, the merged tree holds their reconciliation there: the merge
recurses through every level at which the two shapes agree. -/
theorem getPath_reconcile_both (ps : List String) (s d sts dts : DTree)
    (hs : getPath (.vtree s) ps = some (.vtree sts))
    (hd : getPath (.vtree d) ps = some (.vtree dts)) :
    getPath (.vtree (reconcileTree s d)) ps =
      some (.vtree (reconcileTree sts dts)) := by
  match ps with
  | [] =>
    simp [getPath] at hs hd
    rw [hs, hd]; simp [getPath]
  | k :: ps2 =>
    simp only [getPath] at hs hd ⊢
    cases hls : lookupT s k with
    | none => rw [hls] at hs; simp at hs
    | some sv0 =>
      cases hld : lookupT d k with
      | none => rw [hld] at hd; simp at hd
      | some dv0 =>
        rw [hls] at hs; rw [hld] at hd
        have hlm : lookupT (reconcileTree s d) k =
            some (reconcileValue sv0 dv0) := by
          rw [lookup_reconcile, hls, hld]; rfl
        rw [hlm]
        match sv0, dv0 with
        | .vtree sts0, .vtree dts0 =>
          exact getPath_reconcile_both ps2 sts0 dts0 sts dts hs hd
        | .scalar y, _ => cases ps2 <;> simp [getPath] at hs
        | .slist ys, _ => cases ps2 <;> simp [getPath] at hs
        | .vtree sts0, .scalar y => cases ps2 <;> simp [getPath] at hd
        | .vtree sts0, .slist ys => cases ps2 <;> simp [getPath] at hd

/-- A composite sub-tree of the merged result at a position where the
default tree is also composite is itself a reconciliation against that
default sub-tree. -/
theorem getPath_reconcile_shape (ps : List String) (s d : DTree) (ms dts : DTree)
    (hm : getPath (.vtree (reconcileTree s d)) ps = some (.vtree ms))
    (hd : getPath (.vtree d) ps = some (.vtree dts)) :
    ∃ t, ms = reconcileTree t dts := by
  match ps with
  | [] =>
    simp [getPath] at hm hd
    exact ⟨s, by rw [← hm, ← hd]⟩
  | k :: ps2 =>
    simp only [getPath] at hm hd
    cases hld : lookupT d k with
    | none => rw [hld] at hd; simp at hd
    | some dv0 =>
      rw [hld] at hd
      have hlm0 : lookupT (reconcileTree s d) k =
          some (mergeOpt (lookupT s k) dv0) := by
        rw [lookup_reconcile, hld]; rfl
      rw [hlm0] at hm
      cases hls : lookupT s k with
      | none =>
        rw [hls] at hm
        simp only [mergeOpt] at hm
        have hd2 : getPath dv0 ps2 = some (.vtree dts) := hd
        rw [hd2] at hm
        simp at hm
        exact ⟨.nil, by rw [reconcile_nil_disk, hm]⟩
      | some sv0 =>
        rw [hls] at hm
        simp only [mergeOpt] at hm
        match sv0, dv0 with
        | .vtree sts0, .vtree dts0 =>
          exact getPath_reconcile_shape ps2 sts0 dts0 ms dts hm hd
        | .scalar y, _ => cases ps2 <;> simp [getPath, reconcileValue] at hm
        | .slist ys, _ => cases ps2 <;> simp [getPath, reconcileValue] at hm
        | .vtree sts0, .scalar y => cases ps2 <;> simp [getPath] at hd
        | .vtree sts0, .slist ys => cases ps2 <;> simp [getPath] at hd

/-! ## C2: override preservation -/

/-- C2: Override preservation: a leaf key present in both the on-disk
tree and the default tree at the same position (that is, a key whose two
values are not both composite trees) keeps its on-disk value verbatim in
the merged result, including values that would not type-check. -/
theorem override_preservation (s d : DTree) (ps : List String) (k : String)
    (sv dv : Value)
    (hs : getPath (.vtree s) (ps ++ [k]) = some sv)
    (hd : getPath (.vtree d) (ps ++ [k]) = some dv)
    (hleaf : isTreeV sv = false ∨ isTreeV dv = false) :
    getPath (.vtree (reconcileTree s d)) (ps ++ [k]) = some sv := by
  rw [getPath_append] at hs hd ⊢
  cases hps : getPath (.vtree s) ps with
  | none => rw [hps] at hs; simp at hs
  | some w =>
    cases hpd : getPath (.vtree d) ps with
    | none => rw [hpd] at hd; simp at hd
    | some u =>
      rw [hps] at hs; rw [hpd] at hd
      simp only [Option.some_bind] at hs hd
      obtain ⟨sts, rfl, hsk⟩ := (getPath_single w k sv).mp hs
      obtain ⟨dts, rfl, hdk⟩ := (getPath_single u k dv).mp hd
      rw [getPath_reconcile_both ps s d sts dts hps hpd]
      have hlm : lookupT (reconcileTree sts dts) k = some sv := by
        rw [lookup_reconcile, hsk, hdk]
        simp [mergeOpt, reconcileValue_not_both sv dv hleaf]
      simp [getPath, hlm]

theorem override_preservation_witness :
    getPath (.vtree (reconcileTree exDisk exDefault)) (["a"]) =
      some (.scalar (.i 2)) :=
  override_preservation exDisk exDefault [] ("a") (.scalar (.i 2))
    (.scalar (.i 1)) (by decide) (by decide) (by decide)

/-! ## C3: default fill -/

/-- C3 counterexample: the universally quantified default-fill claim fails
at a shape mismatch.  On disk the key k0 holds the leaf 5 while the
default tree declares the composite sub-tree with key k inside k0.  The
key k at position k0.k is present in the default tree and absent from the
on-disk tree, yet the merged result does not contain it: the on-disk leaf
wins the whole position k0 (override preservation), severing the default
sub-tree. -/
theorem default_fill_counterexample :
    getPath
      (.vtree (.cons ("k0") (.vtree (.cons ("k") (.scalar (.i 7)) .nil)) .nil))
      (["k0", "k"]) = some (.scalar (.i 7)) ∧
    getPath (.vtree (.cons ("k0") (.scalar (.i 5)) .nil)) (["k0", "k"]) = none ∧
    getPath
      (.vtree (reconcileTree
        (.cons ("k0") (.scalar (.i 5)) .nil)
        (.cons ("k0") (.vtree (.cons ("k") (.scalar (.i 7)) .nil)) .nil)))
      (["k0", "k"]) = none := by
  decide

/-- C3 (amended): Default-fill holds at every position not severed by an
on-disk leaf override: whenever the merged result still holds a composite
sub-tree at a position where the default tree holds one, every key of
that default sub-tree that is absent from the on-disk tree at the same
position appears in the merged sub-tree with its default value. -/
theorem default_fill_amended (ps : List String) (s d : DTree) (dts ms : DTree)
    (k : String) (dv : Value)
    (hd : getPath (.vtree d) ps = some (.vtree dts))
    (hdk : lookupT dts k = some dv)
    (hs : getPath (.vtree s) (ps ++ [k]) = none)
    (hm : getPath (.vtree (reconcileTree s d)) ps = some (.vtree ms)) :
    lookupT ms k = some dv := by
  match ps with
  | [] =>
    simp [getPath] at hd hm
    have hsk : lookupT s k = none := by
      cases h : lookupT s k with
      | none => rfl
      | some w => rw [List.nil_append] at hs; simp [getPath, h] at hs
    rw [← hm, lookup_reconcile, hsk, hd, hdk]
    rfl
  | k0 :: ps2 =>
    simp only [List.cons_append, getPath] at hd hm hs
    cases hld : lookupT d k0 with
    | none => rw [hld] at hd; simp at hd
    | some dv0 =>
      rw [hld] at hd
      have hd2 : getPath dv0 ps2 = some (.vtree dts) := hd
      have hlm0 : lookupT (reconcileTree s d) k0 =
          some (mergeOpt (lookupT s k0) dv0) := by
        rw [lookup_reconcile, hld]; rfl
      rw [hlm0] at hm
      cases hls : lookupT s k0 with
      | none =>
        rw [hls] at hm
        simp only [mergeOpt] at hm
        rw [hd2] at hm
        simp at hm
        rw [← hm]
        exact hdk
      | some sv0 =>
        rw [hls] at hm hs
        simp only [mergeOpt] at hm
        have hs2 : getPath sv0 (ps2 ++ [k]) = none := hs
        match sv0, dv0 with
        | .vtree sts0, .vtree dts0 =>
          exact default_fill_amended ps2 sts0 dts0 dts ms k dv hd2 hdk hs2 hm
        | .scalar y, _ => cases ps2 <;> simp [getPath, reconcileValue] at hm
        | .slist ys, _ => cases ps2 <;> simp [getPath, reconcileValue] at hm
        | .vtree sts0, .scalar y => cases ps2 <;> simp [getPath] at hd2
        | .vtree sts0, .slist ys => cases ps2 <;> simp [getPath] at hd2

theorem default_fill_amended_witness :
    lookupT (reconcileTree exDisk exDefault) ("b") =
      some (.vtree (.cons ("c") (.scalar (.s ("x"))) .nil)) :=
  default_fill_amended [] exDisk exDefault exDefault
    (reconcileTree exDisk exDefault) ("b")
    (.vtree (.cons ("c") (.scalar (.s ("x"))) .nil))
    (by decide) (by decide) (by decide) (by decide)

/-! ## C4: pruning -/

/-- C4 counterexample: the universally quantified pruning claim fails at a
shape mismatch.  On disk the key k holds a composite sub-tree containing
the key a, while the default tree declares k as the leaf null.  The key a
at position k.a is present on disk and absent from the default tree, yet
the merged result keeps it: the on-disk value wins the whole position k
verbatim (override preservation), sub-keys included. -/
theorem pruning_counterexample :
    getPath (.vtree (.cons ("k") (.vtree (.cons ("a") (.scalar (.i 1)) .nil)) .nil))
      (["k", "a"]) = some (.scalar (.i 1)) ∧
    getPath (.vtree (.cons ("k") (.scalar (Scalar.null)) .nil)) (["k", "a"]) = none ∧
    getPath
      (.vtree (reconcileTree
        (.cons ("k") (.vtree (.cons ("a") (.scalar (.i 1)) .nil)) .nil)
        (.cons ("k") (.scalar (Scalar.null)) .nil)))
      (["k", "a"]) = some (.scalar (.i 1)) := by
  decide

/-- C4 (amended): Pruning holds at every position at which the merged
result and the default tree both hold composite sub-trees (that is, at
every position the merge actually reconciles rather than takes verbatim
from disk): any key absent from the default sub-tree there is omitted
from the merged sub-tree, at every nesting depth. -/
theorem pruning_amended (s d : DTree) (ps : List String) (ms dts : DTree)
    (k : String)
    (hm : getPath (.vtree (reconcileTree s d)) ps = some (.vtree ms))
    (hd : getPath (.vtree d) ps = some (.vtree dts))
    (hk : lookupT dts k = none) :
    lookupT ms k = none := by
  obtain ⟨t, rfl⟩ := getPath_reconcile_shape ps s d ms dts hm hd
  rw [lookup_reconcile, hk]
  rfl

theorem pruning_amended_witness :
    lookupT (reconcileTree exDisk exDefault) ("old") = none :=
  pruning_amended exDisk exDefault [] (reconcileTree exDisk exDefault)
    exDefault ("old") (by decide) (by decide) (by decide)

/-! ## Lemmas about the orchestration -/

/-- A key is among the keys of a tree exactly when looking it up
succeeds. -/
theorem keysT_lookup (t : DTree) (k : String) :
    k ∈ keysT t ↔ ∃ v, lookupT t k = some v := by
  match t with
  | .nil => simp [keysT, lookupT]
  | .cons k0 v0 rest =>
    by_cases h : k0 = k
    · subst h; simp [keysT, lookupT]
    · simp [keysT, lookupT, h, Ne.symm h, keysT_lookup rest k]

/-- The group default tree holds exactly the schema defaults of the field
names assigned to the group. -/
theorem lookup_groupDefaults (schema : DTree) (ms : List String) (f : String) :
    lookupT (groupDefaults schema ms) f =
      if f ∈ ms then lookupT schema f else none := by
  match ms with
  | [] => simp [groupDefaults, lookupT]
  | m :: rest =>
    by_cases h : m = f
    · subst h
      cases hs : lookupT schema m with
      | none =>
        simp only [groupDefaults, hs, lookup_groupDefaults schema rest m]
        by_cases hr : m ∈ rest <;> simp [hr, hs]
      | some dv => simp [groupDefaults, hs, lookupT]
    · cases hs : lookupT schema m with
      | none =>
        simp only [groupDefaults, hs, lookup_groupDefaults schema rest f]
        simp [List.mem_cons, h, Ne.symm h]
      | some dv =>
        simp only [groupDefaults, hs, lookupT, h, if_false]
        rw [lookup_groupDefaults schema rest f]
        simp [List.mem_cons, Ne.symm h]

/-- The group default tree of a well-formed schema and a duplicate-free
group field list is well formed. -/
theorem wf_groupDefaults (schema : DTree) (ms : List String)
    (hwf : wfTree schema = true) (hnd : ms.Nodup) :
    wfTree (groupDefaults schema ms) = true := by
  match ms with
  | [] => simp [groupDefaults, wfTree]
  | m :: rest =>
    have hnr := (List.nodup_cons.mp hnd).2
    have hmr := (List.nodup_cons.mp hnd).1
    cases hs : lookupT schema m with
    | none => simpa [groupDefaults, hs] using wf_groupDefaults schema rest hwf hnr
    | some dv =>
      simp only [groupDefaults, hs, wfTree, Bool.and_eq_true]
      refine ⟨⟨?_, lookup_wf schema m dv hwf hs⟩, wf_groupDefaults schema rest hwf hnr⟩
      rw [lookup_groupDefaults schema rest m]
      simp [hmr]

/-- A group containing the field contributes at least one to the overlap
count. -/
theorem countGroups_ge_one (f : String) (mp : List (String × List String))
    (g : String × List String) (hg : g ∈ mp) (hf : f ∈ g.2) :
    1 ≤ countGroups f mp := by
  match mp with
  | [] => simp at hg
  | g0 :: rest =>
    rcases List.mem_cons.mp hg with he | hm
    · subst he; simp [countGroups, hf]
    · have := countGroups_ge_one f rest g hm hf
      simp only [countGroups]
      omega

/-- Two groups with different identifiers that both contain the field
give an overlap count of at least two. -/
theorem countGroups_ge_two (f : String) (mp : List (String × List String))
    (g1 g2 : String × List String)
    (h1 : g1 ∈ mp) (h2 : g2 ∈ mp) (hne : g1.1 ≠ g2.1)
    (hf1 : f ∈ g1.2) (hf2 : f ∈ g2.2) : 2 ≤ countGroups f mp := by
  match mp with
  | [] => simp at h1
  | g0 :: rest =>
    rcases List.mem_cons.mp h1 with he1 | hm1
    · have hg2 : g2 ∈ rest := by
        rcases List.mem_cons.mp h2 with he2 | hm2
        · exact absurd (he2 ▸ he1 ▸ rfl : g1.1 = g2.1) hne
        · exact hm2
      have := countGroups_ge_one f rest g2 hg2 hf2
      subst he1
      simp only [countGroups, hf1, if_true]
      omega
    · rcases List.mem_cons.mp h2 with he2 | hm2
      · have hg1 : g1 ∈ rest := hm1
        have := countGroups_ge_one f rest g1 hg1 hf1
        subst he2
        simp only [countGroups, hf2, if_true]
        omega
      · have := countGroups_ge_two f rest g1 g2 hm1 hm2 hne hf1 hf2
        simp only [countGroups]
        omega

/-- Resolving a field through a group it belongs to succeeds whenever the
field is a schema field, and touches no file other than the group's
artifact. -/
theorem resolveGroupStep_ok (schema : DTree) (f : String) (ms : List String)
    (path : String) (fs : FS)
    (hfm : f ∈ ms) (hf : ∃ w, lookupT schema f = some w) :
    ∃ fs1 val, resolveGroupStep schema f ms path fs = (fs1, .ok val) ∧
      ∀ q, q ≠ path → fsLookup fs1 q = fsLookup fs q := by
  obtain ⟨w, hw⟩ := hf
  cases h : fsLookup fs path with
  | none =>
    have honD : fsLookup (generate_yaml_from_model schema ms path fs) path =
        some (groupDefaults schema ms) := by
      simp [generate_yaml_from_model, fsLookup]
    have hsub : lookupT (reconcileTree (groupDefaults schema ms)
        (groupDefaults schema ms)) f =
        some (mergeOpt (lookupT (groupDefaults schema ms) f) w) := by
      rw [lookup_reconcile, lookup_groupDefaults]
      simp [hfm, hw, lookup_groupDefaults]
    refine ⟨(path, reconcileTree (groupDefaults schema ms) (groupDefaults schema ms)) ::
        generate_yaml_from_model schema ms path fs,
      mergeOpt (lookupT (groupDefaults schema ms) f) w, ?_, ?_⟩
    · simp only [resolveGroupStep, h, Option.isSome_none, Bool.false_eq_true,
        if_false, update_yaml_from_model, honD, hsub]
    · intro q hq
      simp [fsLookup, Ne.symm hq, generate_yaml_from_model]
  | some t0 =>
    have hsub : lookupT (reconcileTree t0 (groupDefaults schema ms)) f =
        some (mergeOpt (lookupT t0 f) w) := by
      rw [lookup_reconcile, lookup_groupDefaults]
      simp [hfm, hw]
    refine ⟨(path, reconcileTree t0 (groupDefaults schema ms)) :: fs,
      mergeOpt (lookupT t0 f) w, ?_, ?_⟩
    · simp only [resolveGroupStep, h, Option.isSome_some, if_true,
        update_yaml_from_model, h, hsub]
    · intro q hq
      simp [fsLookup, Ne.symm hq]

/-- Resolving a field of the group whose artifact is absent or already
equal to the group defaults succeeds and leaves the artifact holding
exactly the group defaults. -/
theorem resolveGroupStep_target (schema : DTree) (f : String) (models : List String)
    (path : String) (fs : FS) (dv : Value)
    (hwf : wfTree schema = true) (hnd : models.Nodup) (hfm : f ∈ models)
    (hfd : lookupT schema f = some dv)
    (hinv : fsLookup fs path = none ∨
            fsLookup fs path = some (groupDefaults schema models)) :
    ∃ fs1, resolveGroupStep schema f models path fs = (fs1, .ok dv) ∧
      fsLookup fs1 path = some (groupDefaults schema models) := by
  have hw : lookupT schema f = some dv := hfd
  have hself : reconcileTree (groupDefaults schema models)
      (groupDefaults schema models) = groupDefaults schema models :=
    reconcile_self _ (wf_groupDefaults schema models hwf hnd)
  have hsub : lookupT (reconcileTree (groupDefaults schema models)
      (groupDefaults schema models)) f = some dv := by
    rw [hself, lookup_groupDefaults]
    simp [hfm, hw]
  rcases hinv with h | h
  · have honD : fsLookup (generate_yaml_from_model schema models path fs) path =
        some (groupDefaults schema models) := by
      simp [generate_yaml_from_model, fsLookup]
    refine ⟨(path, reconcileTree (groupDefaults schema models)
        (groupDefaults schema models)) ::
        generate_yaml_from_model schema models path fs, ?_, ?_⟩
    · simp only [resolveGroupStep, h, Option.isSome_none, Bool.false_eq_true,
        if_false, update_yaml_from_model, honD, hsub]
    · simp [fsLookup, hself]
  · refine ⟨(path, reconcileTree (groupDefaults schema models)
        (groupDefaults schema models)) :: fs, ?_, ?_⟩
    · simp only [resolveGroupStep, h, Option.isSome_some, if_true,
        update_yaml_from_model, h, hsub]
    · simp [fsLookup, hself]

/-- With no overlap for the field, the group loop resolves the field
through the group that contains it, wherever it sits in the mapping. -/
theorem resolveGroups_unique (schema : DTree) (f : String) (v : Value) (fs : FS)
    (mp : List (String × List String)) (yamlFile : String) (models : List String)
    (hmem : (yamlFile, models) ∈ mp) (hfm : f ∈ models)
    (hcnt : countGroups f mp ≤ 1) :
    resolveGroups schema f v fs mp =
      resolveGroupStep schema f models (check_yaml_path yamlFile) fs := by
  match mp with
  | [] => simp at hmem
  | (yf, ms) :: mp2 =>
    by_cases hq : f ∈ ms
    · have heq : (yf, ms) = (yamlFile, models) := by
        rcases List.mem_cons.mp hmem with he | hm2
        · exact he.symm
        · exfalso
          have := countGroups_ge_one f mp2 (yamlFile, models) hm2 hfm
          simp only [countGroups, hq, if_true] at hcnt
          omega
      have h1 : yf = yamlFile := congrArg Prod.fst heq
      have h2 : ms = models := congrArg Prod.snd heq
      subst h1; subst h2
      simp [resolveGroups, hq]
    · have hm2 : (yamlFile, models) ∈ mp2 := by
        rcases List.mem_cons.mp hmem with he | hm2
        · have h2 : models = ms := congrArg Prod.snd he
          exact absurd (h2 ▸ hfm) hq
        · exact hm2
      have hcnt2 : countGroups f mp2 ≤ 1 := by
        simp only [countGroups, hq, if_false] at hcnt
        omega
      simp only [resolveGroups, hq, if_false]
      exact resolveGroups_unique schema f v fs mp2 yamlFile models hm2 hfm hcnt2

/-- The group loop ignores the caller-supplied raw value whenever the
field belongs to some group of the mapping. -/
theorem resolveGroups_drops_input (schema : DTree) (f : String) (v1 v2 : Value)
    (fs : FS) (mp : List (String × List String))
    (hmem : ∃ g ∈ mp, f ∈ g.2) :
    resolveGroups schema f v1 fs mp = resolveGroups schema f v2 fs mp := by
  match mp with
  | [] => simp at hmem
  | (yf, ms) :: mp2 =>
    by_cases hq : f ∈ ms
    · simp [resolveGroups, hq]
    · obtain ⟨g, hg, hfg⟩ := hmem
      have hg2 : g ∈ mp2 := by
        rcases List.mem_cons.mp hg with he | hm2
        · subst he; exact absurd hfg hq
        · exact hm2
      simp only [resolveGroups, hq, if_false]
      exact resolveGroups_drops_input schema f v1 v2 fs mp2 ⟨g, hg2, hfg⟩

/-! ## C6: generation path returns the field default -/

/-- C6: On the generation path (no artifact exists yet for the field's
group), field resolution returns the field's own default-derived value.
The orchestrator does run update_yaml_from_model on the freshly generated
content (weldyn.py line 76 executes unconditionally), but since the
generated artifact holds exactly the group defaults, that merge is the
identity and the value handed to the schema framework is the field's
default, unchanged. -/
theorem generation_returns_default (schema : DTree) (cfg : YamlConfigCls)
    (p yamlFile : String) (mapping : List (String × List String))
    (models : List String) (f : String) (dv v : Value) (fs : FS)
    (hpath : cfg.yamlPathAttr = some p)
    (hmap : cfg.modelMappingAttr = some mapping)
    (hwf : wfTree schema = true) (hnd : models.Nodup)
    (hmem : (yamlFile, models) ∈ mapping) (hfm : f ∈ models)
    (hcnt : countGroups f mapping ≤ 1)
    (hfd : lookupT schema f = some dv)
    (habs : fsLookup fs (check_yaml_path yamlFile) = none) :
    (load_or_generate_model_config schema cfg f v fs).2 = .ok dv := by
  have hover : check_model_overlap f mapping = true := by
    simp [check_model_overlap, hcnt]
  obtain ⟨fs1, heval, _⟩ := resolveGroupStep_target schema f models
    (check_yaml_path yamlFile) fs dv hwf hnd hfm hfd (Or.inl habs)
  simp only [load_or_generate_model_config, get_model_mapping_and_path, hpath,
    hmap, Option.getD_some, hover, if_true]
  rw [resolveGroups_unique schema f v fs mapping yamlFile models hmem hfm hcnt,
    heval]

theorem generation_returns_default_witness :
    (load_or_generate_model_config
      (.cons ("sch1") (.vtree (.cons ("a") (.scalar (.i 1)) .nil)) .nil)
      ⟨some ("/tmp"), some [(("grp"), ["sch1"])]⟩
      ("sch1") (.scalar (Scalar.null)) []).2 =
    .ok (.vtree (.cons ("a") (.scalar (.i 1)) .nil)) :=
  generation_returns_default
    (.cons ("sch1") (.vtree (.cons ("a") (.scalar (.i 1)) .nil)) .nil)
    ⟨some ("/tmp"), some [(("grp"), ["sch1"])]⟩
    ("/tmp") ("grp") [(("grp"), ["sch1"])] (["sch1"]) ("sch1")
    (.vtree (.cons ("a") (.scalar (.i 1)) .nil)) (.scalar (Scalar.null)) []
    rfl rfl (by decide) (by decide) (by decide) (by decide) (by decide)
    (by decide) (by decide)

/-! ## C7: group overlap rejection -/

/-- C7: A GroupMapping that assigns the same field name to two different
group identifiers makes the resolution of that field fail with the
ConfigurationConflict error, before any file is read or written. -/
theorem group_overlap_rejection (schema : DTree) (cfg : YamlConfigCls)
    (p : String) (mapping : List (String × List String))
    (g1 g2 : String) (l1 l2 : List String) (f : String) (v : Value) (fs : FS)
    (hpath : cfg.yamlPathAttr = some p)
    (hmap : cfg.modelMappingAttr = some mapping)
    (h1 : (g1, l1) ∈ mapping) (h2 : (g2, l2) ∈ mapping) (hne : g1 ≠ g2)
    (hf1 : f ∈ l1) (hf2 : f ∈ l2) :
    load_or_generate_model_config schema cfg f v fs =
      (fs, .error .configurationConflict) := by
  have h2c : 2 ≤ countGroups f mapping :=
    countGroups_ge_two f mapping (g1, l1) (g2, l2) h1 h2 hne hf1 hf2
  have hover : check_model_overlap f mapping = false := by
    simp only [check_model_overlap, decide_eq_false_iff_not]
    omega
  simp [load_or_generate_model_config, get_model_mapping_and_path, hpath,
    hmap, hover]

theorem group_overlap_rejection_witness :
    load_or_generate_model_config .nil
      ⟨some ("/tmp"), some [(("g1"), ["f"]), (("g2"), ["f"])]⟩
      ("f") (.scalar (Scalar.null)) [] =
    ([], .error .configurationConflict) :=
  group_overlap_rejection .nil
    ⟨some ("/tmp"), some [(("g1"), ["f"]), (("g2"), ["f"])]⟩
    ("/tmp") [(("g1"), ["f"]), (("g2"), ["f"])]
    ("g1") ("g2") (["f"]) (["f"]) ("f") (.scalar (Scalar.null)) []
    rfl rfl (by decide) (by decide) (by decide) (by decide) (by decide)

/-! ## C8: missing base directory -/

/-- C8: When a GroupMapping is configured but the YAML_PATH attribute is
absent, instantiation fails with the missing-path error (the
AttributeError raised by the check_yaml_path model validator reading the
absent attribute), before any field value is produced and with the file
system untouched. -/
theorem config_missing_path (cfg : YamlConfigCls) (schema raw : DTree)
    (fs : FS) (mapping : List (String × List String))
    (hpath : cfg.yamlPathAttr = none)
    (hmap : cfg.modelMappingAttr = some mapping) (hne : mapping ≠ []) :
    instantiate cfg schema raw fs = (fs, .error .attributeErrorYamlPath) := by
  simp [instantiate, check_yaml_path_validator, hpath]

theorem config_missing_path_witness :
    instantiate ⟨none, some [(("model"), ["sch1"])]⟩
      (.cons ("sch1") (.scalar (.i 1)) .nil) .nil [] =
    ([], .error .attributeErrorYamlPath) :=
  config_missing_path ⟨none, some [(("model"), ["sch1"])]⟩
    (.cons ("sch1") (.scalar (.i 1)) .nil) .nil []
    [(("model"), ["sch1"])] rfl rfl (by decide)

/-! ## C9: both YAML_PATH and MODEL_MAPPING absent -/

/-- C9 counterexample: the claim that instantiation succeeds when both
the base directory and the GroupMapping are absent fails on the code: the
check_yaml_path model validator (weldyn.py line 58) dereferences
cls.YamlConfig.YAML_PATH unconditionally, so instantiation raises the
AttributeError even though no mapping is configured. -/
theorem no_config_counterexample :
    instantiate ⟨none, none⟩ (.cons ("x") (.scalar (.i 1)) .nil) .nil [] =
      ([], .error .attributeErrorYamlPath) := rfl

/-- C9 (amended): When both the YAML_PATH and the MODEL_MAPPING
attributes are absent, instantiation fails with the same AttributeError
as in the missing-path case, with the file system untouched: the
YAML_PATH check of the model validator runs before field resolution and
does not consult the mapping. -/
theorem no_config_amended (cfg : YamlConfigCls) (schema raw : DTree) (fs : FS)
    (hpath : cfg.yamlPathAttr = none) (hmap : cfg.modelMappingAttr = none) :
    instantiate cfg schema raw fs = (fs, .error .attributeErrorYamlPath) := by
  simp [instantiate, check_yaml_path_validator, hpath]

theorem no_config_amended_witness :
    instantiate ⟨none, none⟩ (.cons ("y") (.scalar (.b true)) .nil) .nil [] =
      ([], .error .attributeErrorYamlPath) :=
  no_config_amended ⟨none, none⟩ (.cons ("y") (.scalar (.b true)) .nil) .nil []
    rfl rfl

/-! ## C10: mapped fields ignore the caller-supplied value -/

/-- C10: For a field assigned to some group of the mapping, the result of
field resolution (both the value and the file-system effect) does not
depend on the raw value handed to the validator at instantiation: the
caller-supplied value for a mapped field is discarded, so two
instantiations with identical on-disk state resolve the field
identically. -/
theorem mapped_field_ignores_input (schema : DTree) (cfg : YamlConfigCls)
    (p : String) (mapping : List (String × List String)) (f : String)
    (v1 v2 : Value) (fs : FS)
    (hpath : cfg.yamlPathAttr = some p)
    (hmap : cfg.modelMappingAttr = some mapping)
    (hmem : ∃ g ∈ mapping, f ∈ g.2) :
    load_or_generate_model_config schema cfg f v1 fs =
      load_or_generate_model_config schema cfg f v2 fs := by
  simp only [load_or_generate_model_config, get_model_mapping_and_path, hpath,
    hmap, Option.getD_some]
  by_cases hc : check_model_overlap f mapping
  · simp only [hc, if_true]
    exact resolveGroups_drops_input schema f v1 v2 fs mapping hmem
  · simp [hc]

theorem mapped_field_ignores_input_witness :
    load_or_generate_model_config
      (.cons ("sch1") (.scalar (.i 1)) .nil)
      ⟨some ("/tmp"), some [(("model"), ["sch1"])]⟩
      ("sch1") (.scalar (.i 41)) [] =
    load_or_generate_model_config
      (.cons ("sch1") (.scalar (.i 1)) .nil)
      ⟨some ("/tmp"), some [(("model"), ["sch1"])]⟩
      ("sch1") (.scalar (.i 42)) [] :=
  mapped_field_ignores_input
    (.cons ("sch1") (.scalar (.i 1)) .nil)
    ⟨some ("/tmp"), some [(("model"), ["sch1"])]⟩
    ("/tmp") [(("model"), ["sch1"])] ("sch1")
    (.scalar (.i 41)) (.scalar (.i 42)) []
    rfl rfl ⟨(("model"), ["sch1"]), by decide, by decide⟩

/-! ## C5: generation on absence -/

/-- Effect of one pass of the group loop on the artifact of a fixed group
of the mapping: the pass succeeds, it either leaves that artifact alone or
leaves it holding exactly the group defaults, and it surely leaves it
holding the group defaults when the resolved field belongs to the group
and the artifact was absent or already equal to the group defaults. -/
theorem resolveGroups_effect (schema : DTree)
    (mapping : List (String × List String))
    (yamlFile : String) (models : List String)
    (hwf : wfTree schema = true) (hnd : models.Nodup)
    (hmem : (yamlFile, models) ∈ mapping)
    (hids : (mapping.map (fun g => check_yaml_path g.1)).Nodup)
    (mp : List (String × List String))
    (hsub : ∀ g ∈ mp, g ∈ mapping)
    (f : String) (w : Value) (hfd : lookupT schema f = some w)
    (hcnt : countGroups f mp ≤ 1)
    (v : Value) (fs : FS)
    (hinv : fsLookup fs (check_yaml_path yamlFile) = none ∨
        fsLookup fs (check_yaml_path yamlFile) =
          some (groupDefaults schema models)) :
    ∃ fs1 val, resolveGroups schema f v fs mp = (fs1, .ok val) ∧
      (fsLookup fs1 (check_yaml_path yamlFile) =
          fsLookup fs (check_yaml_path yamlFile) ∨
        fsLookup fs1 (check_yaml_path yamlFile) =
          some (groupDefaults schema models)) ∧
      (f ∈ models → (yamlFile, models) ∈ mp →
        fsLookup fs1 (check_yaml_path yamlFile) =
          some (groupDefaults schema models)) := by
  match mp with
  | [] =>
    exact ⟨fs, v, rfl, Or.inl rfl, fun _ h => absurd h (List.not_mem_nil _)⟩
  | (yf, ms) :: mp2 =>
    by_cases hq : f ∈ ms
    · by_cases hpe : check_yaml_path yf = check_yaml_path yamlFile
      · have heq : (yf, ms) = (yamlFile, models) :=
          List.inj_on_of_nodup_map hids (hsub _ (List.mem_cons_self _ _))
            hmem hpe
        have hyf : yf = yamlFile := congrArg Prod.fst heq
        have hms : ms = models := congrArg Prod.snd heq
        subst hyf; subst hms
        obtain ⟨fs1, heval, hlook⟩ := resolveGroupStep_target schema f ms
          (check_yaml_path yf) fs w hwf hnd hq hfd hinv
        refine ⟨fs1, w, ?_, Or.inr hlook, fun _ _ => hlook⟩
        simp [resolveGroups, hq, heval]
      · obtain ⟨fs1, val, heval, huntouched⟩ :=
          resolveGroupStep_ok schema f ms (check_yaml_path yf) fs hq ⟨w, hfd⟩
        have hnfne : check_yaml_path yamlFile ≠ check_yaml_path yf :=
          fun hc => hpe hc.symm
        refine ⟨fs1, val, ?_, Or.inl (huntouched _ hnfne), ?_⟩
        · simp [resolveGroups, hq, heval]
        · intro hfm hmem2
          exfalso
          rcases List.mem_cons.mp hmem2 with he | hm2
          · exact hpe (congrArg (fun g => check_yaml_path (Prod.fst g)) he.symm)
          · have hone := countGroups_ge_one f mp2 (yamlFile, models) hm2 hfm
            simp only [countGroups, hq, if_true] at hcnt
            omega
    · have hcnt2 : countGroups f mp2 ≤ 1 := by
        simp only [countGroups, hq, if_false] at hcnt
        omega
      have hsub2 : ∀ g ∈ mp2, g ∈ mapping :=
        fun g hg => hsub g (List.mem_cons_of_mem _ hg)
      obtain ⟨fs1, val, heval, heff, htrig⟩ := resolveGroups_effect schema
        mapping yamlFile models hwf hnd hmem hids mp2 hsub2 f w hfd hcnt2 v fs hinv
      refine ⟨fs1, val, ?_, heff, ?_⟩
      · simp [resolveGroups, hq, heval]
      · intro hfm hmem2
        rcases List.mem_cons.mp hmem2 with he | hm2
        · have h2 : models = ms := congrArg Prod.snd he
          exact absurd (h2 ▸ hfm) hq
        · exact htrig hfm hm2

/-- Field-by-field resolution preserves the artifact invariant of a fixed
group: every step succeeds, the group's artifact is only ever rewritten to
exactly the group defaults, and it surely holds them once some processed
field belongs to the group. -/
theorem resolveFields_inv (schema : DTree) (cfg : YamlConfigCls) (raw : DTree)
    (p : String) (mapping : List (String × List String))
    (yamlFile : String) (models : List String)
    (hpath : cfg.yamlPathAttr = some p)
    (hmap : cfg.modelMappingAttr = some mapping)
    (hwf : wfTree schema = true) (hnd : models.Nodup)
    (hmem : (yamlFile, models) ∈ mapping)
    (hids : (mapping.map (fun g => check_yaml_path g.1)).Nodup)
    (hov : ∀ f ∈ keysT schema, countGroups f mapping ≤ 1)
    (flds : DTree) (fs : FS)
    (hkeys : ∀ k, k ∈ keysT flds → k ∈ keysT schema)
    (hinv : fsLookup fs (check_yaml_path yamlFile) = none ∨
        fsLookup fs (check_yaml_path yamlFile) =
          some (groupDefaults schema models)) :
    ∃ fs2 vals, resolveFields schema cfg raw fs flds = (fs2, .ok vals) ∧
      (fsLookup fs2 (check_yaml_path yamlFile) =
          fsLookup fs (check_yaml_path yamlFile) ∨
        fsLookup fs2 (check_yaml_path yamlFile) =
          some (groupDefaults schema models)) ∧
      ((∃ k, k ∈ keysT flds ∧ k ∈ models) →
        fsLookup fs2 (check_yaml_path yamlFile) =
          some (groupDefaults schema models)) := by
  match flds with
  | .nil =>
    refine ⟨fs, .nil, rfl, Or.inl rfl, ?_⟩
    rintro ⟨k, hk, _⟩
    simp [keysT] at hk
  | .cons f dv rest =>
    have hfk : f ∈ keysT schema := hkeys f (by simp [keysT])
    obtain ⟨w, hw⟩ := (keysT_lookup schema f).mp hfk
    have hover : check_model_overlap f mapping = true := by
      simp [check_model_overlap, hov f hfk]
    obtain ⟨fs1, val, heval1, heff1, htrig1⟩ := resolveGroups_effect schema
      mapping yamlFile models hwf hnd hmem hids mapping (fun g hg => hg)
      f w hw (hov f hfk)
      (match lookupT raw f with | some rv => rv | none => dv) fs hinv
    have hstep : load_or_generate_model_config schema cfg f
        (match lookupT raw f with | some rv => rv | none => dv) fs =
        (fs1, .ok val) := by
      simp only [load_or_generate_model_config, get_model_mapping_and_path,
        hpath, hmap, Option.getD_some, hover, if_true]
      exact heval1
    have hinv1 : fsLookup fs1 (check_yaml_path yamlFile) = none ∨
        fsLookup fs1 (check_yaml_path yamlFile) =
          some (groupDefaults schema models) := by
      rcases heff1 with he | he
      · rw [he]; exact hinv
      · exact Or.inr he
    obtain ⟨fs2, vals, heval2, heff2, htrig2⟩ := resolveFields_inv schema cfg
      raw p mapping yamlFile models hpath hmap hwf hnd hmem hids hov rest fs1
      (fun k hk => hkeys k (by simp [keysT, hk])) hinv1
    refine ⟨fs2, .cons f val vals, ?_, ?_, ?_⟩
    · simp only [resolveFields, hstep, heval2]
    · rcases heff2 with he2 | he2
      · rw [he2]; exact heff1
      · exact Or.inr he2
    · rintro ⟨k, hk, hkm⟩
      simp only [keysT, List.mem_cons] at hk
      rcases hk with rfl | hk
      · have hgd1 := htrig1 hkm (by assumption)
        rcases heff2 with he2 | he2
        · rw [he2]; exact hgd1
        · exact he2
      · exact htrig2 ⟨k, hk, hkm⟩

/-- C5: Generation on absence: when the artifact of a group of the
mapping does not exist and at least one schema field is assigned to the
group, instantiating the schema creates the artifact and its final
content is exactly the default-derived DocumentTree of every field
assigned to that group, keyed by field name. -/
theorem generation_on_absence (schema raw : DTree) (cfg : YamlConfigCls)
    (p : String) (mapping : List (String × List String))
    (yamlFile : String) (models : List String) (fs : FS) (f0 : String)
    (hpath : cfg.yamlPathAttr = some p)
    (hmap : cfg.modelMappingAttr = some mapping)
    (hwf : wfTree schema = true) (hnd : models.Nodup)
    (hmem : (yamlFile, models) ∈ mapping)
    (hids : (mapping.map (fun g => check_yaml_path g.1)).Nodup)
    (hov : ∀ f ∈ keysT schema, countGroups f mapping ≤ 1)
    (habs : fsLookup fs (check_yaml_path yamlFile) = none)
    (hf0m : f0 ∈ models) (hf0s : f0 ∈ keysT schema) :
    fsLookup (instantiate cfg schema raw fs).1 (check_yaml_path yamlFile) =
      some (groupDefaults schema models) := by
  obtain ⟨fs2, vals, heval, _, htrig⟩ := resolveFields_inv schema cfg raw p
    mapping yamlFile models hpath hmap hwf hnd hmem hids hov schema fs
    (fun _ hk => hk) (Or.inl habs)
  have : instantiate cfg schema raw fs = (fs2, .ok vals) := by
    simp only [instantiate, check_yaml_path_validator, hpath]
    exact heval
  rw [this]
  exact htrig ⟨f0, hf0s, hf0m⟩

theorem generation_on_absence_witness :
    fsLookup
      (instantiate
        ⟨some ("/tmp"), some [(("models"), ["sch1", "sch2"])]⟩
        (.cons ("sch1") (.vtree (.cons ("a") (.scalar (.i 1)) .nil))
          (.cons ("sch2") (.vtree (.cons ("b") (.scalar (.s ("v"))) .nil)) .nil))
        .nil []).1
      (check_yaml_path ("models")) =
    some (.cons ("sch1") (.vtree (.cons ("a") (.scalar (.i 1)) .nil))
      (.cons ("sch2") (.vtree (.cons ("b") (.scalar (.s ("v"))) .nil)) .nil)) :=
  generation_on_absence
    (.cons ("sch1") (.vtree (.cons ("a") (.scalar (.i 1)) .nil))
      (.cons ("sch2") (.vtree (.cons ("b") (.scalar (.s ("v"))) .nil)) .nil))
    .nil
    ⟨some ("/tmp"), some [(("models"), ["sch1", "sch2"])]⟩
    ("/tmp") [(("models"), ["sch1", "sch2"])] ("models") (["sch1", "sch2"])
    [] ("sch1")
    rfl rfl (by decide) (by decide) (by decide) (by decide) (by decide)
    (by decide) (by decide) (by decide)

end Weldyn
